import Mathlib

/-!
Verification of the artifact evaluation pipeline of the model-registry
repository: metric aggregation with a license gate, size-suitability
scoring, lineage-graph cost resolution, pipeline lifecycle invariants,
and the artifact-detail client's retry policy.

The backend pipeline sources are not present in the repository checkout
(only their callers, tests and the frontend client are), so the pipeline
components are modelled from the specification, as marked on each
definition.  The retry policy is embedded directly from
`src/frontend/src/pages/ArtifactDetail.tsx`.
-/

/-- Clamp a rational to the interval [0,1], as the spec's `clamp(x, 0, 1)`. -/
def clamp01 (x : ℚ) : ℚ := max 0 (min 1 x)

/-- Modelled from the spec: a MetricResult carries a metric name, a score in
[0,1] or "errored" (`none`), and an evaluation latency in seconds. -/
structure MetricResult where
  name : String
  score : Option ℚ
  latency : ℚ
deriving DecidableEq, Repr

/-- Modelled from the spec: aggregation configuration — fixed non-negative
per-metric weights and the configured acceptance threshold. -/
structure AggConfig where
  weights : String → ℚ
  threshold : ℚ

/-- Modelled from the spec: the license gate fires when the license metric is
computed (not errored) and equals 0. -/
def licenseGate (rs : List MetricResult) : Bool :=
  rs.any (fun r => decide (r.name = "license") && decide (r.score = some 0))

/-- Modelled from the spec: whether any metric in the result set errored. -/
def anyErrored (rs : List MetricResult) : Bool :=
  rs.any (fun r => r.score.isNone)

/-- Modelled from the spec: the weighted sum of the non-gating metric scores
(the license metric is excluded from the weighted sum). -/
def weightedSum (cfg : AggConfig) (rs : List MetricResult) : ℚ :=
  (rs.map (fun r =>
    if r.name = "license" then 0 else cfg.weights r.name * r.score.getD 0)).sum

/-- Modelled from the spec: `aggregate(results) -> (netScore | none, accept)`.
If the license gate fires the artifact is rejected outright; otherwise, if any
metric errored the net score is `none` (the Rating is still created); otherwise
the net score is the clamped weighted sum and acceptance is decided against the
configured threshold. -/
def aggregate (cfg : AggConfig) (rs : List MetricResult) : Option ℚ × Bool :=
  if licenseGate rs then (none, false)
  else if anyErrored rs then (none, true)
  else
    let n := clamp01 (weightedSum cfg rs)
    (some n, decide (cfg.threshold ≤ n))

/-- Modelled from the spec: a Rating records the artifact id, the net score
(absent when any metric errored), and the full set of MetricResults. -/
structure Rating where
  artifactId : String
  netScore : Option ℚ
  results : List MetricResult
deriving DecidableEq, Repr

/-- Modelled from the spec: the Rating created for an artifact from its metric
results — net score from the aggregator, metric-level detail kept in full. -/
def mkRating (cfg : AggConfig) (artifactId : String) (rs : List MetricResult) : Rating :=
  ⟨artifactId, (aggregate cfg rs).1, rs⟩

/-- Modelled from the spec: the explicit failure returned when a caller asks
for the net score of a Rating with one or more errored metrics. -/
inductive RatingError where
  | incompleteEvaluation
deriving DecidableEq, Repr

/-- Modelled from the spec: answering a net-score request on a Rating — an
explicit IncompleteEvaluationError when the net score is absent. -/
def getNetScore (r : Rating) : Except RatingError ℚ :=
  match r.netScore with
  | some n => .ok n
  | none => .error .incompleteEvaluation

/-- Modelled from the spec: reading one metric's recorded score (possibly
"errored") from a Rating's metric-level detail. -/
def getMetricScore (r : Rating) (name : String) : Option (Option ℚ) :=
  (r.results.find? (fun m => m.name = name)).map (fun m => m.score)

/-- Modelled from the spec: the configurable four-platform capacity table
(platform names as in the frontend's ModelRating.size_score). -/
structure CapacityTable where
  raspberry_pi : ℚ
  jetson_nano : ℚ
  desktop_pc : ℚ
  aws_server : ℚ
deriving DecidableEq, Repr

/-- Modelled from the spec: `score_p = clamp(1 - S/capacity_p, 0, 1)` for one
platform capacity. -/
def sizeScore (cap : ℚ) (S : ℚ) : ℚ := clamp01 (1 - S / cap)

/-- Modelled from the spec: the four platform-specific size-suitability scores
computed from the declared size. -/
structure SizeScores where
  raspberry_pi : ℚ
  jetson_nano : ℚ
  desktop_pc : ℚ
  aws_server : ℚ
deriving DecidableEq, Repr

/-- Modelled from the spec: the SizeSuitabilityEvaluator applied to a declared
size over the capacity table. -/
def sizeScores (t : CapacityTable) (S : ℚ) : SizeScores :=
  ⟨sizeScore t.raspberry_pi S, sizeScore t.jetson_nano S,
   sizeScore t.desktop_pc S, sizeScore t.aws_server S⟩

/-- The four capacities of the table, as a list, for quantifying over the
fixed platform set. -/
def platformCaps (t : CapacityTable) : List ℚ :=
  [t.raspberry_pi, t.jetson_nano, t.desktop_pc, t.aws_server]

/-- Modelled from the spec: a LineageNode — an artifact id or external
reference together with its declared standalone size in MB. -/
structure LineageNode where
  id : String
  size : ℚ
deriving DecidableEq, Repr

/-- Modelled from the spec: a LineageEdge — an ordered pair of node ids plus a
relationship label; the graph must be treated as possibly cyclic. -/
structure LineageEdge where
  src : String
  dst : String
  label : String
deriving DecidableEq, Repr

/-- Modelled from the spec: a lineage graph, nodes plus directed edges. -/
structure LineageGraph where
  nodes : List LineageNode
  edges : List LineageEdge
deriving DecidableEq, Repr

/-- The ids reachable from `x` along one outgoing lineage edge. -/
def succs (g : LineageGraph) (x : String) : List String :=
  (g.edges.filter (fun e => decide (e.src = x))).map (fun e => e.dst)

/-- One edge step of the lineage graph, as a relation on node ids. -/
def edgeStep (g : LineageGraph) (a b : String) : Prop :=
  ∃ e ∈ g.edges, e.src = a ∧ e.dst = b

/-- Reachability along outgoing lineage edges (reflexive-transitive closure of
one edge step). -/
def Reach (g : LineageGraph) (a b : String) : Prop :=
  Relation.ReflTransGen (edgeStep g) a b

/-- The successor ids of `x`, as a finite set. -/
def succsFinset (g : LineageGraph) (x : String) : Finset String :=
  (succs g x).toFinset

/-- One expansion step of the visited set: keep everything visited and add
every id one outgoing edge away from a visited id. -/
def stepVisited (g : LineageGraph) (s : Finset String) : Finset String :=
  s ∪ s.biUnion (succsFinset g)

/-- The finite pool of ids a traversal from `root` can ever visit: the root
plus every edge destination. -/
def pool (g : LineageGraph) (root : String) : Finset String :=
  insert root (g.edges.map (fun e => e.dst)).toFinset

/-- Modelled from the spec: the visited set of the CostResolver's traversal
from `root` — each reachable node visited at most once, computed by expanding
the visited set to its fixpoint (reached within `(pool g root).card` steps). -/
def reachableFinset (g : LineageGraph) (root : String) : Finset String :=
  (stepVisited g)^[(pool g root).card] {root}

/-- Look up a node id's declared size in the graph's node list; `none` when
the id is missing from the bundle (unresolvable). -/
def sizeOf? (g : LineageGraph) (x : String) : Option ℚ :=
  (g.nodes.find? (fun n => n.id = x)).map (fun n => n.size)

/-- The declared size of a node id, defaulting to 0 (only used underneath a
resolvability check). -/
def size0 (g : LineageGraph) (x : String) : ℚ :=
  (sizeOf? g x).getD 0

/-- Whether every id in a visited set has a resolvable declared size. -/
def allResolvable (g : LineageGraph) (vs : Finset String) : Bool :=
  decide (∀ x ∈ vs, (sizeOf? g x).isSome)

/-- Modelled from the spec: a CostEntry — per node, standalone cost (MB) and
total cost (MB, sum over the reachable subgraph). -/
structure CostEntry where
  standaloneCost : ℚ
  totalCost : ℚ
deriving DecidableEq, Repr

/-- Modelled from the spec:
`cost(artifactId, includeDependencies) -> mapping(nodeId -> entry)`.
Without dependencies: only the requested node, standalone = total = own size.
With dependencies: one entry per visited (reachable) node; the total cost of a
node sums the standalone sizes of the distinct nodes reachable from it.  If
any visited node's size is unresolvable the whole query fails (`none`). -/
def costQuery (g : LineageGraph) (artifactId : String) (includeDependencies : Bool) :
    Option (List (String × CostEntry)) :=
  if includeDependencies then
    if allResolvable g (reachableFinset g artifactId) then
      some (((reachableFinset g artifactId).sort (· ≤ ·)).map (fun v =>
        (v, ⟨size0 g v, (reachableFinset g v).sum (fun x => size0 g x)⟩)))
    else none
  else
    (sizeOf? g artifactId).map (fun s => [(artifactId, ⟨s, s⟩)])

/-- Read one node's CostEntry out of a returned cost mapping. -/
def lookupCost (m : List (String × CostEntry)) (id : String) : Option CostEntry :=
  (m.find? (fun p => p.1 = id)).map (fun p => p.2)

/-- Modelled from the spec: the artifact lifecycle / pipeline states,
`pending → evaluating → {accepted, rejected, failed}`. -/
inductive Status where
  | pending
  | evaluating
  | accepted
  | rejected
  | failed
deriving DecidableEq, Repr

/-- Modelled from the spec: the persisted registry state the pipeline acts on —
per-artifact lifecycle status and persisted Ratings, behind the repository
contract. -/
structure RegistryState where
  statuses : List (String × Status)
  ratings : List (String × Rating)
deriving DecidableEq, Repr

/-- The empty registry. -/
def initState : RegistryState := ⟨[], []⟩

/-- Status of an artifact id in the registry, if registered. -/
def lookupStatus (s : RegistryState) (id : String) : Option Status :=
  (s.statuses.find? (fun p => p.1 = id)).map (fun p => p.2)

/-- Persisted Rating of an artifact id, if any. -/
def lookupRating (s : RegistryState) (id : String) : Option Rating :=
  (s.ratings.find? (fun p => p.1 = id)).map (fun p => p.2)

/-- Modelled from the spec: the repository-level operations a pipeline run
performs — create the artifact and start evaluating, then commit exactly one
terminal state (persisting the Rating only on acceptance). -/
inductive PipelineOp where
  | register (id : String)
  | finalizeAccept (id : String) (r : Rating)
  | finalizeReject (id : String)
  | finalizeFail (id : String)
deriving DecidableEq, Repr

/-- Set an artifact's status (most recent binding wins). -/
def setStatus (s : RegistryState) (id : String) (st : Status) : RegistryState :=
  { s with statuses := (id, st) :: s.statuses }

/-- Persist a Rating for an artifact (most recent binding wins). -/
def putRating (s : RegistryState) (id : String) (r : Rating) : RegistryState :=
  { s with ratings := (id, r) :: s.ratings }

/-- Modelled from the spec: the effect of one pipeline operation on the
registry.  Registration creates a fresh artifact in `evaluating`; a terminal
commit happens at most once, only from `evaluating` (the repository layer's
at-most-once terminal commit); only acceptance persists a Rating. -/
def applyOp (s : RegistryState) (op : PipelineOp) : RegistryState :=
  match op with
  | .register id =>
      if (lookupStatus s id).isSome then s else setStatus s id .evaluating
  | .finalizeAccept id r =>
      if lookupStatus s id = some .evaluating then putRating (setStatus s id .accepted) id r
      else s
  | .finalizeReject id =>
      if lookupStatus s id = some .evaluating then setStatus s id .rejected else s
  | .finalizeFail id =>
      if lookupStatus s id = some .evaluating then setStatus s id .failed else s

/-- The registry state after a sequence of pipeline operations from empty. -/
def runOps (ops : List PipelineOp) : RegistryState :=
  ops.foldl applyOp initState

/-- The Rating/status invariant: a persisted Rating exists for an artifact if
and only if that artifact's status is `accepted`. -/
def RatingInvariant (s : RegistryState) : Prop :=
  ∀ id, (lookupRating s id).isSome ↔ lookupStatus s id = some .accepted

/-- Modelled from the spec: the metadata bundle fetched per evaluation —
declared size, declared dependencies, license identifier. -/
structure MetadataBundle where
  declaredSize : ℚ
  dependencies : List String
  license : String
deriving DecidableEq, Repr

/-- Modelled from the spec: the MetadataFetcher's outcome — a bundle, or a
FetchError (metadata could not be retrieved at all, including a fetch
timeout before the pipeline deadline). -/
inductive FetchOutcome where
  | ok (md : MetadataBundle)
  | fetchError
deriving DecidableEq, Repr

/-- Modelled from the spec: the verdict `register` returns to its caller. -/
inductive RunResult where
  | acceptedWith (r : Rating)
  | rejectedRun
  | failedRun
deriving DecidableEq, Repr

/-- Modelled from the spec: one pipeline run for a new artifact — fetch, fan
out the evaluators over the bundle, aggregate, commit the terminal state.  A
FetchError aborts the run: the pipeline transitions to `failed` and no Rating
is produced or persisted. -/
def runPipeline (cfg : AggConfig) (evalAll : MetadataBundle → List MetricResult)
    (fetch : FetchOutcome) (s : RegistryState) (id : String) : RunResult × RegistryState :=
  let s1 := applyOp s (.register id)
  match fetch with
  | .fetchError => (.failedRun, applyOp s1 (.finalizeFail id))
  | .ok md =>
      let rs := evalAll md
      let (_, accept) := aggregate cfg rs
      if accept then
        let r := mkRating cfg id rs
        (.acceptedWith r, applyOp s1 (.finalizeAccept id r))
      else
        (.rejectedRun, applyOp s1 (.finalizeReject id))

/-- Whether `p` is an initial run of `l` (on character lists). -/
def leadsWith : List Char → List Char → Bool
  | [], _ => true
  | _ :: _, [] => false
  | c :: cs, d :: ds => c = d && leadsWith cs ds

/-- Whether `needle` occurs contiguously somewhere inside the list. -/
def hasSub (needle : List Char) : List Char → Bool
  | [] => leadsWith needle []
  | d :: ds => leadsWith needle (d :: ds) || hasSub needle ds

/-- From the code (ArtifactDetail.tsx): `error.message.includes("404")` — the
message contains the substring "404". -/
def has404 (msg : String) : Bool :=
  hasSub ['4', '0', '4'] msg.toList

/-- From the code (ArtifactDetail.tsx, the query's retry callback): retry only
when the error message contains "404" and fewer than 3 retries have already
occurred. -/
def shouldRetry (failureCount : Nat) (msg : String) : Bool :=
  has404 msg && decide (failureCount < 3)

/-- From the code (ArtifactDetail.tsx): the configured delay between retries,
in milliseconds. -/
def retryDelayMs : Nat := 2000

/-- Outcome of a single fetch attempt made by the artifact-detail client. -/
inductive AttemptOutcome where
  | success
  | failure (msg : String)
deriving DecidableEq, Repr

/-- The client's bounded retry loop: given the outcomes of successive attempts
and the failure count so far, returns the surfaced result (success, or the
error surfaced to the user) together with the number of attempts consumed. -/
def runQuery (failureCount : Nat) : List AttemptOutcome → Except String Unit × Nat
  | [] => (.ok (), 0)
  | .success :: _ => (.ok (), 1)
  | .failure msg :: rest =>
      if shouldRetry failureCount msg then
        let (res, n) := runQuery (failureCount + 1) rest
        (res, n + 1)
      else (.error msg, 1)

/-! ### Traversal infrastructure: the visited-set expansion reaches, within
`(pool g root).card` steps, exactly the set of ids reachable from the root. -/

theorem mem_succs {g : LineageGraph} {x y : String} :
    y ∈ succs g x ↔ edgeStep g x y := by
  simp only [succs, edgeStep, List.mem_map, List.mem_filter, decide_eq_true_eq]
  constructor
  · rintro ⟨e, ⟨he, hsrc⟩, hdst⟩
    exact ⟨e, he, hsrc, hdst⟩
  · rintro ⟨e, he, hsrc, hdst⟩
    exact ⟨e, ⟨he, hsrc⟩, hdst⟩

theorem subset_stepVisited (g : LineageGraph) (s : Finset String) :
    s ⊆ stepVisited g s :=
  Finset.subset_union_left

theorem stepVisited_mono (g : LineageGraph) {s t : Finset String} (h : s ⊆ t) :
    stepVisited g s ⊆ stepVisited g t :=
  Finset.union_subset_union h (Finset.biUnion_subset_biUnion_of_subset_left _ h)

theorem iter_subset_succ (g : LineageGraph) (s : Finset String) (n : ℕ) :
    (stepVisited g)^[n] s ⊆ (stepVisited g)^[n + 1] s := by
  rw [Function.iterate_succ_apply']
  exact subset_stepVisited g _

theorem iter_subset_of_le (g : LineageGraph) (s : Finset String) {m n : ℕ} (h : m ≤ n) :
    (stepVisited g)^[m] s ⊆ (stepVisited g)^[n] s := by
  induction n with
  | zero => rw [Nat.le_zero.mp h]
  | succ k ih =>
      rcases Nat.le_succ_iff.mp h with h' | h'
      · exact (ih h').trans (iter_subset_succ g s k)
      · rw [h']

theorem iter_stable_of_stable (g : LineageGraph) (s : Finset String) {n : ℕ}
    (h : (stepVisited g)^[n + 1] s = (stepVisited g)^[n] s) :
    ∀ k, (stepVisited g)^[n + k] s = (stepVisited g)^[n] s := by
  intro k
  induction k with
  | zero => rfl
  | succ j ih =>
      have hidx : n + (j + 1) = (n + j) + 1 := by omega
      rw [hidx, Function.iterate_succ_apply', ih,
        ← Function.iterate_succ_apply' (stepVisited g) n s]
      exact h

theorem iter_subset_pool (g : LineageGraph) (root : String) (n : ℕ) :
    (stepVisited g)^[n] {root} ⊆ pool g root := by
  induction n with
  | zero =>
      simp only [Function.iterate_zero, id_eq]
      exact Finset.singleton_subset_iff.mpr (Finset.mem_insert_self _ _)
  | succ k ih =>
      rw [Function.iterate_succ_apply']
      refine Finset.union_subset ih (Finset.biUnion_subset.mpr ?_)
      intro x _
      intro y hy
      rw [succsFinset, List.mem_toFinset, mem_succs] at hy
      rcases hy with ⟨e, he, _, hdst⟩
      refine Finset.mem_insert_of_mem ?_
      rw [List.mem_toFinset]
      exact List.mem_map.mpr ⟨e, he, hdst⟩

theorem exists_stable_le_card (g : LineageGraph) (root : String) :
    ∃ n ≤ (pool g root).card,
      (stepVisited g)^[n + 1] {root} = (stepVisited g)^[n] {root} := by
  by_contra hcon
  push_neg at hcon
  have hgrow : ∀ n, n ≤ (pool g root).card + 1 →
      n + 1 ≤ ((stepVisited g)^[n] ({root} : Finset String)).card := by
    intro n
    induction n with
    | zero => simp
    | succ k ih =>
        intro hk
        have hk' : k ≤ (pool g root).card := by omega
        have hne := hcon k hk'
        have hss : (stepVisited g)^[k] ({root} : Finset String) ⊂
            (stepVisited g)^[k + 1] {root} :=
          Finset.ssubset_iff_subset_ne.mpr ⟨iter_subset_succ g _ k, fun h => hne h.symm⟩
        have := Finset.card_lt_card hss
        have := ih (by omega)
        omega
  have h1 := hgrow ((pool g root).card + 1) le_rfl
  have h2 : ((stepVisited g)^[(pool g root).card + 1] ({root} : Finset String)).card ≤
      (pool g root).card :=
    Finset.card_le_card (iter_subset_pool g root _)
  omega

theorem stepVisited_reachableFinset (g : LineageGraph) (root : String) :
    stepVisited g (reachableFinset g root) = reachableFinset g root := by
  obtain ⟨n, hn, hst⟩ := exists_stable_le_card g root
  have hN : ∀ k, (stepVisited g)^[n + k] ({root} : Finset String) =
      (stepVisited g)^[n] {root} := iter_stable_of_stable g _ hst
  have e1 : reachableFinset g root = (stepVisited g)^[n] {root} := by
    rw [reachableFinset]
    have : (pool g root).card = n + ((pool g root).card - n) := by omega
    rw [this, hN]
  rw [e1, ← Function.iterate_succ_apply' (stepVisited g) n {root}]
  exact hst

theorem root_mem_reachableFinset (g : LineageGraph) (root : String) :
    root ∈ reachableFinset g root :=
  iter_subset_of_le g _ (Nat.zero_le _) (Finset.mem_singleton_self root)

theorem mem_iter_reach {g : LineageGraph} {root x : String} {n : ℕ}
    (h : x ∈ (stepVisited g)^[n] ({root} : Finset String)) : Reach g root x := by
  induction n generalizing x with
  | zero =>
      simp only [Function.iterate_zero, id_eq, Finset.mem_singleton] at h
      exact h ▸ Relation.ReflTransGen.refl
  | succ k ih =>
      rw [Function.iterate_succ_apply', stepVisited, Finset.mem_union] at h
      rcases h with h | h
      · exact ih h
      · rcases Finset.mem_biUnion.mp h with ⟨y, hy, hxy⟩
        rw [succsFinset, List.mem_toFinset, mem_succs] at hxy
        exact Relation.ReflTransGen.tail (ih hy) hxy

theorem reach_mem_reachableFinset {g : LineageGraph} {root x : String}
    (h : Reach g root x) : x ∈ reachableFinset g root := by
  induction h with
  | refl => exact root_mem_reachableFinset g root
  | tail _ hbc ih =>
      rw [← stepVisited_reachableFinset g root, stepVisited, Finset.mem_union]
      right
      refine Finset.mem_biUnion.mpr ⟨_, ih, ?_⟩
      rw [succsFinset, List.mem_toFinset, mem_succs]
      exact hbc

theorem mem_reachableFinset (g : LineageGraph) (root x : String) :
    x ∈ reachableFinset g root ↔ Reach g root x :=
  ⟨mem_iter_reach, reach_mem_reachableFinset⟩

theorem find?_map_pair {f : String → CostEntry} :
    ∀ {l : List String} {a : String}, a ∈ l →
      (l.map (fun v => (v, f v))).find? (fun p => p.1 = a) = some (a, f a) := by
  intro l
  induction l with
  | nil => intro a ha; cases ha
  | cons v t ih =>
      intro a ha
      by_cases hva : v = a
      · subst hva
        simp [List.find?]
      · have hat : a ∈ t := by
          rcases List.mem_cons.mp ha with hh | hh
          · exact absurd hh.symm hva
          · exact hh
        simpa [List.find?, hva] using ih hat

theorem costQuery_dep_root_entry (g : LineageGraph) (root : String)
    (h : allResolvable g (reachableFinset g root) = true) :
    ∃ m, costQuery g root true = some m ∧
      lookupCost m root =
        some ⟨size0 g root, (reachableFinset g root).sum (fun x => size0 g x)⟩ := by
  refine ⟨((reachableFinset g root).sort (· ≤ ·)).map
      (fun v => (v, ⟨size0 g v, (reachableFinset g v).sum (fun x => size0 g x)⟩)), ?_, ?_⟩
  · simp [costQuery, h]
  · have hmem : root ∈ (reachableFinset g root).sort (· ≤ ·) :=
      (Finset.mem_sort _).mpr (root_mem_reachableFinset g root)
    unfold lookupCost
    rw [find?_map_pair hmem]
    rfl

/-- A diamond lineage graph: A→B, A→C, B→D, C→D, with sizes
A = 2 MB, B = 5 MB, C = 5 MB, D = 2 MB. -/
def gDiamond : LineageGraph :=
  ⟨[⟨"A", 2⟩, ⟨"B", 5⟩, ⟨"C", 5⟩, ⟨"D", 2⟩],
   [⟨"A", "B", "depends-on"⟩, ⟨"A", "C", "depends-on"⟩,
    ⟨"B", "D", "depends-on"⟩, ⟨"C", "D", "depends-on"⟩]⟩

/-- A cyclic lineage graph: A→B and B→A, with sizes A = 3 MB, B = 4 MB. -/
def gCycle : LineageGraph :=
  ⟨[⟨"A", 3⟩, ⟨"B", 4⟩],
   [⟨"A", "B", "derived-from"⟩, ⟨"B", "A", "derived-from"⟩]⟩

/-- C1: with `includeDependencies = true`, the cost query returns for the root
a totalCost equal to the sum of the standalone sizes of the distinct nodes
reachable from the root (root included), each counted exactly once (the sum
ranges over the *set* of reachable node ids), and every node not reachable
from the root is excluded (the visited set is exactly the reachable set). -/
theorem cost_total_counts_each_reachable_node_once (g : LineageGraph) (root : String)
    (h : allResolvable g (reachableFinset g root) = true) :
    ∃ m, costQuery g root true = some m ∧
      lookupCost m root =
        some ⟨size0 g root, (reachableFinset g root).sum (fun x => size0 g x)⟩ ∧
      ∀ x : String, x ∈ reachableFinset g root ↔ Reach g root x := by
  obtain ⟨m, hm, hl⟩ := costQuery_dep_root_entry g root h
  exact ⟨m, hm, hl, fun x => mem_reachableFinset g root x⟩

/-- Witness for C1 on the diamond graph A→B, A→C, B→D, C→D: the query
succeeds and the root total counts D's size exactly once, 2+5+5+2 = 14. -/
theorem cost_total_counts_witness :
    allResolvable gDiamond (reachableFinset gDiamond "A") = true ∧
    (reachableFinset gDiamond "A").sum (fun x => size0 gDiamond x) = 14 ∧
    (∃ m, costQuery gDiamond "A" true = some m ∧
      lookupCost m "A" =
        some ⟨size0 gDiamond "A", (reachableFinset gDiamond "A").sum (fun x => size0 gDiamond x)⟩ ∧
      ∀ x : String, x ∈ reachableFinset gDiamond "A" ↔ Reach gDiamond "A" x) := by
  refine ⟨by decide, ?_,
    cost_total_counts_each_reachable_node_once gDiamond "A" (by decide)⟩
  have hset : reachableFinset gDiamond "A" = {"A", "B", "C", "D"} := by decide
  rw [hset]
  simp +decide [Finset.sum_insert, size0, sizeOf?, gDiamond]
  norm_num

/-- C2: the traversal's visited-set expansion reaches its fixpoint within
`(pool g root).card` steps on every graph, cyclic graphs included — the
visited-set loop terminates — and the query returns the finite total equal to
the sum of the distinct reachable nodes' sizes. -/
theorem cost_traversal_terminates_on_cycles (g : LineageGraph) (root : String)
    (h : allResolvable g (reachableFinset g root) = true) :
    (∃ n ≤ (pool g root).card,
        stepVisited g ((stepVisited g)^[n] {root}) = (stepVisited g)^[n] {root} ∧
        reachableFinset g root = (stepVisited g)^[n] {root}) ∧
    ∃ m, costQuery g root true = some m ∧
      lookupCost m root =
        some ⟨size0 g root, (reachableFinset g root).sum (fun x => size0 g x)⟩ := by
  constructor
  · obtain ⟨n, hn, hst⟩ := exists_stable_le_card g root
    refine ⟨n, hn, ?_, ?_⟩
    · rw [← Function.iterate_succ_apply' (stepVisited g) n {root}]
      exact hst
    · rw [reachableFinset]
      have hsplit : (pool g root).card = n + ((pool g root).card - n) := by omega
      rw [hsplit]
      exact iter_stable_of_stable g _ hst _
  · exact costQuery_dep_root_entry g root h

/-- Witness for C2 on the cyclic graph A→B→A: the fixpoint is reached, the
query succeeds and the root total is the finite sum 3 + 4 = 7. -/
theorem cost_cycle_witness :
    allResolvable gCycle (reachableFinset gCycle "A") = true ∧
    (reachableFinset gCycle "A").sum (fun x => size0 gCycle x) = 7 ∧
    ((∃ n ≤ (pool gCycle "A").card,
        stepVisited gCycle ((stepVisited gCycle)^[n] {"A"}) = (stepVisited gCycle)^[n] {"A"} ∧
        reachableFinset gCycle "A" = (stepVisited gCycle)^[n] {"A"}) ∧
      ∃ m, costQuery gCycle "A" true = some m ∧
        lookupCost m "A" =
          some ⟨size0 gCycle "A", (reachableFinset gCycle "A").sum (fun x => size0 gCycle x)⟩) := by
  refine ⟨by decide, ?_,
    cost_traversal_terminates_on_cycles gCycle "A" (by decide)⟩
  have hset : reachableFinset gCycle "A" = {"A", "B"} := by decide
  rw [hset]
  simp +decide [Finset.sum_insert, size0, sizeOf?, gCycle]
  norm_num

/-- C8: with `includeDependencies = false`, the cost query returns a mapping
with exactly one entry — the requested node — whose standaloneCost and
totalCost both equal the artifact's own declared size. -/
theorem cost_without_dependencies_single_entry (g : LineageGraph) (root : String) (s : ℚ)
    (h : sizeOf? g root = some s) :
    costQuery g root false = some [(root, ⟨s, s⟩)] := by
  simp [costQuery, h]

/-- Witness for C8: querying A in the diamond graph without dependencies
returns the single entry (A, ⟨2, 2⟩). -/
theorem cost_without_dependencies_witness :
    costQuery gDiamond "A" false = some [("A", ⟨2, 2⟩)] :=
  cost_without_dependencies_single_entry gDiamond "A" 2 (by decide)

/-! ### Aggregator: license gate, partial-failure semantics, determinism. -/

theorem perm_any {α : Type} {l l' : List α} (h : l.Perm l') (p : α → Bool) :
    l.any p = l'.any p := by
  cases hb : l'.any p with
  | true =>
      rw [List.any_eq_true] at hb ⊢
      rcases hb with ⟨x, hx, hp⟩
      exact ⟨x, h.mem_iff.mpr hx, hp⟩
  | false =>
      rw [List.any_eq_false] at hb ⊢
      intro x hx
      exact hb x (h.mem_iff.mp hx)

/-- A fixed aggregation configuration used by the concrete witnesses: equal
weights over the nine non-gating metrics, acceptance threshold 1/2. -/
def cfg0 : AggConfig := ⟨fun _ => 1 / 9, 1 / 2⟩

/-- C3: if the license metric is computed and equals 0, the aggregation
decision is rejection (and no net score is published), regardless of all other
metric scores and regardless of whether any other metric errored. -/
theorem license_zero_always_rejects (cfg : AggConfig) (rs : List MetricResult)
    (h : ∃ r ∈ rs, r.name = "license" ∧ r.score = some 0) :
    (aggregate cfg rs).2 = false ∧ (aggregate cfg rs).1 = none := by
  have hg : licenseGate rs = true := by
    rcases h with ⟨r, hr, hn, hs⟩
    rw [licenseGate, List.any_eq_true]
    exact ⟨r, hr, by simp [hn, hs]⟩
  simp [aggregate, hg]

/-- A metric result set with license 0, every other computed metric 1.0, and
one errored metric. -/
def rsLicenseZero : List MetricResult :=
  [⟨"ramp_up_time", some 1, 0⟩, ⟨"bus_factor", some 1, 0⟩,
   ⟨"performance_claims", some 1, 0⟩, ⟨"license", some 0, 0⟩,
   ⟨"dataset_and_code_score", some 1, 0⟩, ⟨"dataset_quality", some 1, 0⟩,
   ⟨"code_quality", some 1, 0⟩, ⟨"reproducibility", some 1, 0⟩,
   ⟨"reviewedness", some 1, 0⟩, ⟨"tree_score", none, 0⟩]

/-- Witness for C3: license = 0 with all other metrics 1.0 (and one errored
metric) is rejected. -/
theorem license_zero_witness :
    (aggregate cfg0 rsLicenseZero).2 = false ∧ (aggregate cfg0 rsLicenseZero).1 = none :=
  license_zero_always_rejects cfg0 rsLicenseZero
    ⟨⟨"license", some 0, 0⟩, by decide, rfl, rfl⟩

/-- C4: if any metric errored and the license gate does not fire, the
aggregate net score is `none`; the Rating is still created carrying the full
metric-level detail; a net-score request on it answers with the explicit
IncompleteEvaluationError; and every individual metric's score remains
readable from the Rating. -/
theorem errored_metric_net_score_absent (cfg : AggConfig) (id : String)
    (rs : List MetricResult)
    (h1 : anyErrored rs = true) (h2 : licenseGate rs = false) :
    (aggregate cfg rs).1 = none ∧
    (mkRating cfg id rs).results = rs ∧
    getNetScore (mkRating cfg id rs) = .error .incompleteEvaluation ∧
    ∀ r ∈ rs, (getMetricScore (mkRating cfg id rs) r.name).isSome := by
  have hagg : (aggregate cfg rs).1 = none := by simp [aggregate, h1, h2]
  refine ⟨hagg, rfl, ?_, ?_⟩
  · show getNetScore ⟨id, (aggregate cfg rs).1, rs⟩ = .error .incompleteEvaluation
    rw [hagg]
    rfl
  · intro r hr
    have hfind : (rs.find? (fun m => m.name = r.name)).isSome := by
      rw [List.find?_isSome]
      exact ⟨r, hr, by simp⟩
    simpa [getMetricScore, mkRating] using hfind

/-- A metric result set with one errored metric and a passing license. -/
def rsOneErrored : List MetricResult :=
  [⟨"license", some 1, 0⟩, ⟨"ramp_up_time", none, 0⟩, ⟨"bus_factor", some 1, 0⟩]

/-- Witness for C4 on a result set with one errored metric and license 1. -/
theorem errored_metric_witness :
    (aggregate cfg0 rsOneErrored).1 = none ∧
    (mkRating cfg0 "m1" rsOneErrored).results = rsOneErrored ∧
    getNetScore (mkRating cfg0 "m1" rsOneErrored) = .error .incompleteEvaluation ∧
    ∀ r ∈ rsOneErrored, (getMetricScore (mkRating cfg0 "m1" rsOneErrored) r.name).isSome :=
  errored_metric_net_score_absent cfg0 "m1" rsOneErrored (by decide) (by decide)

/-- C6: aggregation is a pure function of the metric result set — it is
order-insensitive: any permutation of the result list yields the identical
net score and accept/reject decision. -/
theorem aggregate_deterministic_order_insensitive (cfg : AggConfig)
    (rs rs' : List MetricResult) (h : rs.Perm rs') :
    aggregate cfg rs = aggregate cfg rs' := by
  have hg : licenseGate rs = licenseGate rs' := perm_any h _
  have he : anyErrored rs = anyErrored rs' := perm_any h _
  have hw : weightedSum cfg rs = weightedSum cfg rs' := (h.map _).sum_eq
  simp only [aggregate, hg, he, hw]

/-- A license metric result used by the order-insensitivity witness. -/
def mrLic : MetricResult := ⟨"license", some 1, 0⟩

/-- A bus-factor metric result used by the order-insensitivity witness. -/
def mrBus : MetricResult := ⟨"bus_factor", some 1, 1⟩

/-- Witness for C6: swapping two metric results leaves the aggregate
unchanged. -/
theorem aggregate_order_witness :
    aggregate cfg0 [mrLic, mrBus] = aggregate cfg0 [mrBus, mrLic] :=
  aggregate_deterministic_order_insensitive cfg0 [mrLic, mrBus] [mrBus, mrLic]
    (List.Perm.swap mrBus mrLic [])

/-! ### Size suitability. -/

theorem clamp01_nonneg (x : ℚ) : 0 ≤ clamp01 x := le_max_left 0 _

theorem clamp01_le_one (x : ℚ) : clamp01 x ≤ 1 :=
  max_le (by norm_num) (min_le_left 1 x)

theorem clamp01_mono {x y : ℚ} (h : x ≤ y) : clamp01 x ≤ clamp01 y :=
  max_le_max le_rfl (min_le_min le_rfl h)

/-- C5: for a declared size S ≥ 0 and each of the four platform capacities in
the table, the size score is `clamp(1 - S/capacity, 0, 1)`; it lies in [0,1],
it is exactly 0 (never negative) when the size exceeds the capacity, and it is
monotonically non-increasing in the size for a fixed capacity. -/
theorem size_scores_bounded_and_monotone (t : CapacityTable) (S : ℚ) (_hS : 0 ≤ S) :
    sizeScores t S = ⟨sizeScore t.raspberry_pi S, sizeScore t.jetson_nano S,
        sizeScore t.desktop_pc S, sizeScore t.aws_server S⟩ ∧
    ∀ cap ∈ platformCaps t, 0 < cap →
      (0 ≤ sizeScore cap S ∧ sizeScore cap S ≤ 1) ∧
      (cap < S → sizeScore cap S = 0) ∧
      ∀ S', S ≤ S' → sizeScore cap S' ≤ sizeScore cap S := by
  refine ⟨rfl, ?_⟩
  intro cap _ hcap
  refine ⟨⟨clamp01_nonneg _, clamp01_le_one _⟩, ?_, ?_⟩
  · intro hlt
    have hdiv : 1 < S / cap := (one_lt_div hcap).mpr hlt
    have hneg : 1 - S / cap < 0 := by linarith
    have h1 : min 1 (1 - S / cap) = 1 - S / cap := min_eq_right (by linarith)
    have h2 : max 0 (1 - S / cap) = 0 := max_eq_left (by linarith)
    rw [sizeScore, clamp01, h1, h2]
  · intro S' hS'
    have hdivle : S / cap ≤ S' / cap := (div_le_div_iff_of_pos_right hcap).mpr hS'
    exact clamp01_mono (by linarith)

/-- The illustrative capacity table, in MB: 1 GB / 4 GB / 16 GB / 64 GB. -/
def capTable0 : CapacityTable := ⟨1000, 4000, 16000, 64000⟩

/-- Witness for C5 at size 2000 MB over the illustrative capacity table:
bounds hold, the raspberry-pi score (capacity 1000) is exactly 0, and a larger
size never increases a score. -/
theorem size_scores_witness :
    (0 ≤ sizeScore 1000 2000 ∧ sizeScore 1000 2000 ≤ 1) ∧
    sizeScore 1000 2000 = 0 ∧
    sizeScore 4000 3000 ≤ sizeScore 4000 2000 := by
  obtain ⟨-, h2⟩ := size_scores_bounded_and_monotone capTable0 2000 (by norm_num)
  have hrp := h2 1000 (by simp [capTable0, platformCaps]) (by norm_num)
  have hjn := h2 4000 (by simp [capTable0, platformCaps]) (by norm_num)
  exact ⟨hrp.1, hrp.2.1 (by norm_num), hjn.2.2 3000 (by norm_num)⟩

/-! ### Pipeline lifecycle: the Rating/status invariant and fetch failures. -/

theorem lookupStatus_setStatus (s : RegistryState) (id : String) (st : Status)
    (id' : String) :
    lookupStatus (setStatus s id st) id' =
      if id = id' then some st else lookupStatus s id' := by
  by_cases h : id = id'
  · subst h
    simp [lookupStatus, setStatus, List.find?]
  · simp [lookupStatus, setStatus, List.find?, h]

theorem lookupRating_setStatus (s : RegistryState) (id : String) (st : Status)
    (id' : String) :
    lookupRating (setStatus s id st) id' = lookupRating s id' := rfl

theorem lookupRating_putRating (s : RegistryState) (id : String) (r : Rating)
    (id' : String) :
    lookupRating (putRating s id r) id' =
      if id = id' then some r else lookupRating s id' := by
  by_cases h : id = id'
  · subst h
    simp [lookupRating, putRating, List.find?]
  · simp [lookupRating, putRating, List.find?, h]

theorem lookupStatus_putRating (s : RegistryState) (id : String) (r : Rating)
    (id' : String) :
    lookupStatus (putRating s id r) id' = lookupStatus s id' := rfl

theorem ratingInvariant_applyOp {s : RegistryState} (hs : RatingInvariant s)
    (op : PipelineOp) : RatingInvariant (applyOp s op) := by
  cases op with
  | register id =>
      simp only [applyOp]
      split
      · exact hs
      · rename_i hnot
        intro id'
        rw [lookupRating_setStatus, lookupStatus_setStatus]
        by_cases hid : id = id'
        · subst hid
          have hnone : lookupStatus s id = none :=
            Option.not_isSome_iff_eq_none.mp (by simpa using hnot)
          have h0 := hs id
          rw [hnone] at h0
          rw [if_pos rfl, h0]
          simp
        · rw [if_neg hid]
          exact hs id'
  | finalizeAccept id r =>
      simp only [applyOp]
      split
      · intro id'
        rw [lookupRating_putRating, lookupStatus_putRating, lookupStatus_setStatus]
        by_cases hid : id = id'
        · subst hid
          simp
        · rw [if_neg hid, if_neg hid, lookupRating_setStatus]
          exact hs id'
      · exact hs
  | finalizeReject id =>
      simp only [applyOp]
      split
      · rename_i heval
        intro id'
        rw [lookupRating_setStatus, lookupStatus_setStatus]
        by_cases hid : id = id'
        · subst hid
          have h0 := hs id
          rw [heval] at h0
          rw [if_pos rfl, h0]
          simp
        · rw [if_neg hid]
          exact hs id'
      · exact hs
  | finalizeFail id =>
      simp only [applyOp]
      split
      · rename_i heval
        intro id'
        rw [lookupRating_setStatus, lookupStatus_setStatus]
        by_cases hid : id = id'
        · subst hid
          have h0 := hs id
          rw [heval] at h0
          rw [if_pos rfl, h0]
          simp
        · rw [if_neg hid]
          exact hs id'
      · exact hs

theorem ratingInvariant_foldl (ops : List PipelineOp) :
    ∀ (s : RegistryState), RatingInvariant s → RatingInvariant (ops.foldl applyOp s) := by
  induction ops with
  | nil => intro s hs; exact hs
  | cons op t ih => intro s hs; exact ih _ (ratingInvariant_applyOp hs op)

/-- C7: in every state reachable by pipeline operations from the empty
registry, a persisted Rating exists for an artifact if and only if that
artifact's status is `accepted`; in particular a `rejected` artifact has no
persisted Rating. -/
theorem rating_exists_iff_accepted (ops : List PipelineOp) :
    RatingInvariant (runOps ops) ∧
    ∀ id, lookupStatus (runOps ops) id = some .rejected →
      lookupRating (runOps ops) id = none := by
  have hinit : RatingInvariant initState := by
    intro id
    simp [lookupRating, lookupStatus, initState]
  have hinv : RatingInvariant (runOps ops) := ratingInvariant_foldl ops initState hinit
  refine ⟨hinv, ?_⟩
  intro id hrej
  have h0 := hinv id
  rw [hrej] at h0
  refine Option.not_isSome_iff_eq_none.mp ?_
  intro hr
  have := h0.mp hr
  simp at this

/-- Witness for C7: after registering and then rejecting an artifact, the
invariant holds and the rejected artifact has no persisted Rating. -/
theorem rating_invariant_witness :
    lookupStatus (runOps [.register "a", .finalizeReject "a"]) "a" = some .rejected ∧
    lookupRating (runOps [.register "a", .finalizeReject "a"]) "a" = none :=
  ⟨by decide,
   (rating_exists_iff_accepted [.register "a", .finalizeReject "a"]).2 "a" (by decide)⟩

/-- C9: when the MetadataFetcher fails, the run returns the `failed` outcome,
no Rating is produced or persisted (the rating store is untouched), and the
artifact's pipeline state ends `failed`. -/
theorem fetch_error_fails_without_rating (cfg : AggConfig)
    (evalAll : MetadataBundle → List MetricResult) (s : RegistryState) (id : String) :
    (runPipeline cfg evalAll .fetchError s id).1 = .failedRun ∧
    (runPipeline cfg evalAll .fetchError s id).2.ratings = s.ratings ∧
    (lookupStatus s id = none →
      lookupStatus (runPipeline cfg evalAll .fetchError s id).2 id = some .failed) := by
  refine ⟨rfl, ?_, ?_⟩
  · show (applyOp (applyOp s (.register id)) (.finalizeFail id)).ratings = s.ratings
    have h1 : ∀ (s' : RegistryState), (applyOp s' (.register id)).ratings = s'.ratings := by
      intro s'
      simp only [applyOp]
      split <;> rfl
    have h2 : ∀ (s' : RegistryState), (applyOp s' (.finalizeFail id)).ratings = s'.ratings := by
      intro s'
      simp only [applyOp]
      split <;> rfl
    rw [h2, h1]
  · intro hnone
    show lookupStatus (applyOp (applyOp s (.register id)) (.finalizeFail id)) id = some .failed
    have e1 : applyOp s (.register id) = setStatus s id .evaluating := by
      simp [applyOp, hnone]
    have heval : lookupStatus (setStatus s id .evaluating) id = some .evaluating := by
      rw [lookupStatus_setStatus, if_pos rfl]
    have e2 : applyOp (setStatus s id .evaluating) (.finalizeFail id) =
        setStatus (setStatus s id .evaluating) id .failed := by
      simp [applyOp, heval]
    rw [e1, e2, lookupStatus_setStatus, if_pos rfl]

/-- Witness for C9: a fresh artifact whose fetch fails — the run reports
`failed`, the rating store stays empty, and the artifact ends in `failed`. -/
theorem fetch_error_witness :
    (runPipeline cfg0 (fun _ => []) .fetchError initState "a").1 = .failedRun ∧
    (runPipeline cfg0 (fun _ => []) .fetchError initState "a").2.ratings = initState.ratings ∧
    lookupStatus (runPipeline cfg0 (fun _ => []) .fetchError initState "a").2 "a" =
      some .failed := by
  have h := fetch_error_fails_without_rating cfg0 (fun _ => []) initState "a"
  exact ⟨h.1, h.2.1, h.2.2 rfl⟩

/-! ### The artifact-detail client's retry policy (from ArtifactDetail.tsx). -/

/-- C10: a failed artifact fetch is retried exactly when the error message
contains "404" and fewer than 3 retries have already occurred, with a 2000 ms
delay between attempts; any other error is surfaced immediately, and the
fourth consecutive 404 is surfaced without a further retry (4 attempts in
total). -/
theorem retry_only_on_404_with_bounded_retries :
    (∀ fc msg, shouldRetry fc msg = true ↔ (has404 msg = true ∧ fc < 3)) ∧
    retryDelayMs = 2000 ∧
    (∀ fc msg rest, has404 msg = false →
      runQuery fc (.failure msg :: rest) = (.error msg, 1)) ∧
    (∀ msg rest, has404 msg = true →
      runQuery 3 (.failure msg :: rest) = (.error msg, 1)) ∧
    (∀ msg, has404 msg = true →
      runQuery 0 [.failure msg, .failure msg, .failure msg, .failure msg] =
        (.error msg, 4)) := by
  refine ⟨?_, rfl, ?_, ?_, ?_⟩
  · intro fc msg
    simp [shouldRetry]
  · intro fc msg rest h
    simp [runQuery, shouldRetry, h]
  · intro msg rest h
    simp [runQuery, shouldRetry, h]
  · intro msg h
    simp [runQuery, shouldRetry, h]

/-- Witness for C10: a non-404 error is surfaced on the first attempt; four
consecutive 404 failures surface the error after exactly 4 attempts
(3 retries). -/
theorem retry_policy_witness :
    runQuery 0 [.failure "network down"] = (.error "network down", 1) ∧
    runQuery 0 [.failure "HTTP 404", .failure "HTTP 404", .failure "HTTP 404",
      .failure "HTTP 404"] = (.error "HTTP 404", 4) := by
  have h := retry_only_on_404_with_bounded_retries
  exact ⟨h.2.2.1 0 "network down" [] (by decide), h.2.2.2.2 "HTTP 404" (by decide)⟩
